import Mathlib

/-!
Verification of `ftpedia_pdf_article_to_latex.py`.

Strings are modelled as `List Char` (`PyStr`); Python string primitives
(`strip`, `lstrip`, `find`, `count`, `replace`, `split`) are embedded as
executable functions on `PyStr`.  Fallible Python code (index errors,
unpacking errors, falling off the end of a function, which yields `None`)
is modelled with `Option`.  Vertical positions of PDF elements are
modelled with `ℚ` (the source uses floats; all inputs of interest are
exact halves).
-/

abbrev PyStr := List Char

/-- The ASCII whitespace characters recognised by Python's `str.strip`,
`str.lstrip` and the regex class used in the source. -/
def isPySpace (c : Char) : Bool :=
  c = ' ' || c = '\t' || c = '\n' || c = '\x0b' || c = '\x0c' || c = '\r'

/-- Python `s.lstrip()`. -/
def pyLStrip (s : PyStr) : PyStr := s.dropWhile isPySpace

/-- Drop trailing whitespace (Python `s.rstrip()`). -/
def pyRStrip (s : PyStr) : PyStr := ((s.reverse).dropWhile isPySpace).reverse

/-- Python `s.strip()`. -/
def pyStrip (s : PyStr) : PyStr := pyRStrip (pyLStrip s)

/-- Run of three spaces, the column separator searched by
`line.strip().find('   ')` and `split('   ', 1)` in the source. -/
def sp3 : PyStr := [' ', ' ', ' ']

/-- Run of four spaces, searched by `s.find('    ')` in `sanitize_spaces`. -/
def sp4 : PyStr := [' ', ' ', ' ', ' ']

theorem take2_pair {cs : PyStr} (h : cs.take 2 = [' ', ' ']) :
    ∃ t, cs = ' ' :: ' ' :: t := by
  match cs, h with
  | a :: b :: t, h =>
    simp only [List.take, List.cons.injEq] at h
    exact ⟨t, by simp [h.1, h.2.1]⟩

theorem take3_triple {cs : PyStr} (h : cs.take 3 = [' ', ' ', ' ']) :
    ∃ t, cs = ' ' :: ' ' :: ' ' :: t := by
  match cs, h with
  | a :: b :: c :: t, h =>
    simp only [List.take, List.cons.injEq] at h
    exact ⟨t, by simp [h.1, h.2.1, h.2.2.1]⟩

/-- Python `s.find('   ') != -1`: does `s` contain three consecutive spaces? -/
def hasSp3 : PyStr → Bool
  | [] => false
  | c :: cs => if c = ' ' ∧ cs.take 2 = [' ', ' '] then true else hasSp3 cs

/-- Python `s.find('    ') != -1`: does `s` contain four consecutive spaces? -/
def hasSp4 : PyStr → Bool
  | [] => false
  | c :: cs => if c = ' ' ∧ cs.take 3 = [' ', ' ', ' '] then true else hasSp4 cs

/-- Python `s.count('   ')`: number of non-overlapping occurrences of three
spaces, scanning left to right. -/
def count3 : PyStr → Nat
  | ' ' :: ' ' :: ' ' :: cs => count3 cs + 1
  | _ :: cs => count3 cs
  | [] => 0

/-- The two step equations of `count3` in the guarded form the other
space-run functions use. -/
theorem count3_cons_pos {c : Char} {cs : PyStr}
    (h : c = ' ' ∧ cs.take 2 = [' ', ' ']) :
    count3 (c :: cs) = count3 (cs.drop 2) + 1 := by
  obtain ⟨rfl, htake⟩ := h
  obtain ⟨t, rfl⟩ := take2_pair htake
  rfl

theorem count3_cons_neg {c : Char} {cs : PyStr}
    (h : ¬ (c = ' ' ∧ cs.take 2 = [' ', ' '])) :
    count3 (c :: cs) = count3 cs := by
  rw [count3.eq_def]
  split
  · rename_i heq
    injection heq with h1 h2
    subst h1
    refine absurd ⟨rfl, ?_⟩ h
    rw [h2]
    rfl
  · rename_i heq
    injection heq with h1 h2
    rw [h2]
  · rename_i heq
    exact absurd heq (by simp)

/-- Python `s.replace('    ', '   ')`: replace every non-overlapping
occurrence of four spaces by three, scanning left to right. -/
def repl4 : PyStr → PyStr
  | [] => []
  | c :: cs =>
    if c = ' ' ∧ cs.take 3 = [' ', ' ', ' '] then
      ' ' :: ' ' :: ' ' :: repl4 (cs.drop 3)
    else c :: repl4 cs
termination_by s => s.length
decreasing_by
  · simp only [List.length_cons, List.length_drop]; omega
  · simp only [List.length_cons]; omega

/-- Python `s.replace('   ', ' ', n)`: replace the first `n` non-overlapping
occurrences of three spaces by one space. -/
def repl3 : Nat → PyStr → PyStr
  | 0, s => s
  | _ + 1, [] => []
  | n + 1, c :: cs =>
    if c = ' ' ∧ cs.take 2 = [' ', ' '] then ' ' :: repl3 n (cs.drop 2)
    else c :: repl3 (n + 1) cs

/-- Python `s.split('   ', 1)`: split at the first occurrence of three
spaces.  `none` models the `ValueError` raised by the source's tuple
unpacking `(leftline, rightline) = ....split('   ', 1)` when there is no
occurrence and the split returns a single element. -/
def split3once : PyStr → Option (PyStr × PyStr)
  | [] => none
  | c :: cs =>
    if c = ' ' ∧ cs.take 2 = [' ', ' '] then some ([], cs.drop 2)
    else (split3once cs).map (fun p => (c :: p.1, p.2))

theorem repl4_length_le (s : PyStr) : (repl4 s).length ≤ s.length := by
  induction s using repl4.induct with
  | case1 => simp [repl4]
  | case2 c cs h ih =>
    rw [repl4, if_pos h]
    obtain ⟨-, h2⟩ := h
    have hlen : 3 ≤ cs.length := by
      have := congrArg List.length h2
      simp [List.length_take] at this
      omega
    simp only [List.length_cons]
    have := List.length_drop 3 cs
    omega
  | case3 c cs h ih =>
    rw [repl4, if_neg h]
    simpa using ih

theorem repl4_length_lt (s : PyStr) (h : hasSp4 s = true) :
    (repl4 s).length < s.length := by
  induction s using repl4.induct with
  | case1 => simp [hasSp4] at h
  | case2 c cs hc ih =>
    rw [repl4, if_pos hc]
    obtain ⟨-, h2⟩ := hc
    have hlen : 3 ≤ cs.length := by
      have := congrArg List.length h2
      simp [List.length_take] at this
      omega
    have := repl4_length_le (cs.drop 3)
    have := List.length_drop 3 cs
    simp only [List.length_cons]
    omega
  | case3 c cs hc ih =>
    rw [repl4, if_neg hc]
    simp only [hasSp4] at h
    rw [if_neg hc] at h
    simpa using ih h

/-- First loop of `sanitize_spaces`:
`while s.find('    ') != -1: s = s.replace('    ', '   ')`. -/
def shrink4 (s : PyStr) : PyStr :=
  if h : hasSp4 s = true then shrink4 (repl4 s) else s
termination_by s.length
decreasing_by exact repl4_length_lt s h

theorem repl3_length_le (n : Nat) (s : PyStr) : (repl3 n s).length ≤ s.length := by
  induction n, s using repl3.induct with
  | case1 => simp [repl3]
  | case2 => simp [repl3]
  | case3 n c cs h ih =>
    rw [repl3, if_pos h]
    obtain ⟨-, h2⟩ := h
    have hlen : 2 ≤ cs.length := by
      have := congrArg List.length h2
      simp [List.length_take] at this
      omega
    have := List.length_drop 2 cs
    simp only [List.length_cons]
    omega
  | case4 n c cs h ih =>
    rw [repl3, if_neg h]
    simpa using ih

theorem repl3_length_lt (n : Nat) (s : PyStr) (hn : 1 ≤ n) (hc : 1 ≤ count3 s) :
    (repl3 n s).length < s.length := by
  induction n, s using repl3.induct with
  | case1 s => omega
  | case2 n => simp [count3] at hc
  | case3 n c cs h ih =>
    rw [repl3, if_pos h]
    obtain ⟨-, h2⟩ := h
    have hlen : 2 ≤ cs.length := by
      have := congrArg List.length h2
      simp [List.length_take] at this
      omega
    have := repl3_length_le n (cs.drop 2)
    have := List.length_drop 2 cs
    simp only [List.length_cons]
    omega
  | case4 n c cs h ih =>
    rw [repl3, if_neg h]
    rw [count3_cons_neg h] at hc
    have := ih hn hc
    simpa using this

/-- Second loop of `sanitize_spaces`:
`while s.count('   ') > 1: s = s.replace('   ', ' ', s.count('   ') - 1)`. -/
def collapse3 (s : PyStr) : PyStr :=
  if h : 1 < count3 s then collapse3 (repl3 (count3 s - 1) s) else s
termination_by s.length
decreasing_by exact repl3_length_lt (count3 s - 1) s (by omega) (by omega)

/-- `sanitize_spaces` from the source: shrink every run of four or more
spaces to three, then collapse all but the last run of three spaces to a
single space. -/
def sanitize_spaces (s : PyStr) : PyStr := collapse3 (shrink4 s)

/-- `s.find('    ') != -1` holds exactly when `s` decomposes around a run of
four spaces. -/
theorem hasSp4_true_iff (s : PyStr) :
    hasSp4 s = true ↔ ∃ a b, s = a ++ sp4 ++ b := by
  induction s using hasSp4.induct with
  | case1 =>
    constructor
    · intro h
      simp [hasSp4] at h
    · rintro ⟨a, b, h⟩
      simp [sp4] at h
  | case2 c cs hcond =>
    obtain ⟨hc, htake⟩ := hcond
    obtain ⟨t, rfl⟩ := take3_triple htake
    subst hc
    constructor
    · intro _
      exact ⟨[], t, by simp [sp4]⟩
    · intro _
      simp [hasSp4]
  | case3 c cs hcond ih =>
    have hstep : hasSp4 (c :: cs) = hasSp4 cs := by
      simp only [hasSp4]
      rw [if_neg hcond]
    rw [hstep, ih]
    constructor
    · rintro ⟨a, b, rfl⟩
      exact ⟨c :: a, b, by simp⟩
    · rintro ⟨a, b, h⟩
      cases a with
      | nil =>
        simp only [List.nil_append, sp4, List.cons_append, List.cons.injEq] at h
        obtain ⟨rfl, h⟩ := h
        have hcs : cs = ' ' :: ' ' :: ' ' :: b := by simpa using h
        subst hcs
        exact absurd ⟨rfl, rfl⟩ hcond
      | cons x a' =>
        simp only [List.cons_append, List.cons.injEq] at h
        exact ⟨a', b, h.2⟩

/-- `s.find('   ') != -1` holds exactly when `s` decomposes around a run of
three spaces. -/
theorem hasSp3_true_iff (s : PyStr) :
    hasSp3 s = true ↔ ∃ a b, s = a ++ sp3 ++ b := by
  induction s using hasSp3.induct with
  | case1 =>
    constructor
    · intro h
      simp [hasSp3] at h
    · rintro ⟨a, b, h⟩
      simp [sp3] at h
  | case2 c cs hcond =>
    obtain ⟨hc, htake⟩ := hcond
    obtain ⟨t, rfl⟩ := take2_pair htake
    subst hc
    constructor
    · intro _
      exact ⟨[], t, by simp [sp3]⟩
    · intro _
      simp [hasSp3]
  | case3 c cs hcond ih =>
    have hstep : hasSp3 (c :: cs) = hasSp3 cs := by
      simp only [hasSp3]
      rw [if_neg hcond]
    rw [hstep, ih]
    constructor
    · rintro ⟨a, b, rfl⟩
      exact ⟨c :: a, b, by simp⟩
    · rintro ⟨a, b, h⟩
      cases a with
      | nil =>
        simp only [List.nil_append, sp3, List.cons_append, List.cons.injEq] at h
        obtain ⟨rfl, h⟩ := h
        have hcs : cs = ' ' :: ' ' :: b := by simpa using h
        subst hcs
        exact absurd ⟨rfl, rfl⟩ hcond
      | cons x a' =>
        simp only [List.cons_append, List.cons.injEq] at h
        exact ⟨a', b, h.2⟩

theorem hasSp4_false_iff (s : PyStr) :
    hasSp4 s = false ↔ ∀ a b, s ≠ a ++ sp4 ++ b := by
  constructor
  · intro h a b heq
    have : hasSp4 s = true := (hasSp4_true_iff s).mpr ⟨a, b, heq⟩
    rw [h] at this
    exact absurd this (by simp)
  · intro h
    cases hb : hasSp4 s with
    | false => rfl
    | true =>
      obtain ⟨a, b, heq⟩ := (hasSp4_true_iff s).mp hb
      exact absurd heq (h a b)

theorem hasSp3_false_iff (s : PyStr) :
    hasSp3 s = false ↔ ∀ a b, s ≠ a ++ sp3 ++ b := by
  constructor
  · intro h a b heq
    have : hasSp3 s = true := (hasSp3_true_iff s).mpr ⟨a, b, heq⟩
    rw [h] at this
    exact absurd this (by simp)
  · intro h
    cases hb : hasSp3 s with
    | false => rfl
    | true =>
      obtain ⟨a, b, heq⟩ := (hasSp3_true_iff s).mp hb
      exact absurd heq (h a b)

theorem repl3_nil (n : Nat) : repl3 n [] = [] := by
  cases n <;> simp [repl3]

theorem repl3_cons_ne {c : Char} (hc : ¬ c = ' ') (n : Nat) (cs : PyStr) :
    repl3 n (c :: cs) = c :: repl3 n cs := by
  cases n with
  | zero => simp [repl3]
  | succ n =>
    rw [repl3, if_neg (by intro hh; exact hc hh.1)]

theorem hasSp4_tail {c : Char} {cs : PyStr} (h : hasSp4 (c :: cs) = false) :
    hasSp4 cs = false := by
  rw [hasSp4_false_iff] at h ⊢
  intro a b heq
  exact h (c :: a) b (by simp [heq])

/-- `repl3` (one pass of the second loop of `sanitize_spaces`) never creates
a run of four spaces when its input has none. -/
theorem repl3_hasSp4 (n : Nat) (s : PyStr) (h : hasSp4 s = false) :
    hasSp4 (repl3 n s) = false := by
  induction n, s using repl3.induct with
  | case1 s => simpa [repl3] using h
  | case2 n => simp [repl3, hasSp4]
  | case3 n c cs hcond ih =>
    obtain ⟨hc, htake⟩ := hcond
    obtain ⟨t, rfl⟩ := take2_pair htake
    subst hc
    rw [repl3, if_pos ⟨rfl, rfl⟩]
    simp only [List.drop_succ_cons, List.drop_zero]
    have hnos : ∀ u, t ≠ ' ' :: u := by
      intro u hu
      have := (hasSp4_false_iff _).mp h [] u
      exact this (by simp [sp4, hu])
    have ht : hasSp4 t = false :=
      hasSp4_tail (hasSp4_tail (hasSp4_tail h))
    have hrec := ih ht
    rw [hasSp4_false_iff]
    intro a b heq
    cases a with
    | nil =>
      simp only [List.nil_append, sp4, List.cons_append, List.cons.injEq] at heq
      obtain ⟨-, heq⟩ := heq
      cases t with
      | nil => simp [repl3_nil] at heq
      | cons d u =>
        have hd : ¬ d = ' ' := fun hd => hnos u (by rw [hd])
        rw [repl3_cons_ne hd] at heq
        simp only [List.cons.injEq] at heq
        exact hd heq.1
    | cons x a' =>
      simp only [List.cons_append, List.cons.injEq] at heq
      exact (hasSp4_false_iff _).mp hrec a' b heq.2
  | case4 n c cs hcond ih =>
    have hcs : hasSp4 cs = false := hasSp4_tail h
    have hrec := ih hcs
    rw [repl3, if_neg hcond]
    rw [hasSp4_false_iff]
    intro a b heq
    cases a with
    | cons x a' =>
      simp only [List.cons_append, List.cons.injEq] at heq
      exact (hasSp4_false_iff _).mp hrec a' b heq.2
    | nil =>
      simp only [List.nil_append, sp4, List.cons_append, List.cons.injEq] at heq
      obtain ⟨rfl, heq⟩ := heq
      have htk : ¬ cs.take 2 = [' ', ' '] := fun hh => hcond ⟨rfl, hh⟩
      cases cs with
      | nil => simp [repl3_nil] at heq
      | cons e es =>
        by_cases he : e = ' '
        · subst he
          have hes1 : ∀ u, es ≠ ' ' :: u := by
            intro u hu
            subst hu
            simp at htk
          have hes2 : ¬ es.take 2 = [' ', ' '] := by
            intro hh
            obtain ⟨u, rfl⟩ := take2_pair hh
            exact hes1 (' ' :: u) rfl
          rw [repl3, if_neg (fun hh => hes2 hh.2)] at heq
          simp only [List.cons.injEq] at heq
          obtain ⟨-, heq⟩ := heq
          cases es with
          | nil => simp [repl3_nil] at heq
          | cons f fs =>
            have hf : ¬ f = ' ' := fun hf => hes1 fs (by rw [hf])
            rw [repl3_cons_ne hf] at heq
            simp only [List.cons.injEq] at heq
            exact hf heq.1
        · rw [repl3_cons_ne he] at heq
          simp only [List.cons.injEq] at heq
          exact he heq.1

theorem shrink4_no4 (s : PyStr) : hasSp4 (shrink4 s) = false := by
  induction s using shrink4.induct with
  | case1 s hs ih =>
    rw [shrink4, dif_pos hs]
    exact ih
  | case2 s hs =>
    rw [shrink4, dif_neg hs]
    simpa using hs

theorem collapse3_no4 (s : PyStr) :
    hasSp4 s = false → hasSp4 (collapse3 s) = false := by
  induction s using collapse3.induct with
  | case1 s hc ih =>
    intro h
    rw [collapse3, dif_pos hc]
    exact ih (repl3_hasSp4 _ _ h)
  | case2 s hc =>
    intro h
    rw [collapse3, dif_neg hc]
    exact h

theorem collapse3_count (s : PyStr) : count3 (collapse3 s) ≤ 1 := by
  induction s using collapse3.induct with
  | case1 s hc ih =>
    rw [collapse3, dif_pos hc]
    exact ih
  | case2 s hc =>
    rw [collapse3, dif_neg hc]
    omega

/-- `split3once` splits at the first run of three spaces: the two pieces
reassemble the input around one run of three spaces, and the left piece
contains no such run (the split really happens on the first one). -/
theorem split3once_decomp (s a b : PyStr) (h : split3once s = some (a, b)) :
    s = a ++ sp3 ++ b ∧ hasSp3 a = false := by
  induction s using split3once.induct generalizing a b with
  | case1 => simp [split3once] at h
  | case2 c cs hcond =>
    obtain ⟨hc, htake⟩ := hcond
    obtain ⟨t, rfl⟩ := take2_pair htake
    subst hc
    rw [split3once, if_pos ⟨rfl, rfl⟩] at h
    simp only [List.drop_succ_cons, List.drop_zero, Option.some.injEq,
      Prod.mk.injEq] at h
    obtain ⟨ha, hb⟩ := h
    subst ha
    subst hb
    exact ⟨by simp [sp3], by simp [hasSp3]⟩
  | case3 c cs hcond ih =>
    rw [split3once, if_neg hcond] at h
    cases hrec : split3once cs with
    | none =>
      rw [hrec] at h
      simp at h
    | some p =>
      obtain ⟨a', b'⟩ := p
      rw [hrec] at h
      simp only [Option.map_some', Option.some.injEq, Prod.mk.injEq] at h
      obtain ⟨ha, hb⟩ := h
      subst ha
      subst hb
      obtain ⟨h1, h2⟩ := ih a' b' hrec
      constructor
      · rw [List.cons_append, List.cons_append, ← h1]
      · rw [hasSp3_false_iff]
        intro x y heq
        cases x with
        | nil =>
          simp only [List.nil_append, sp3, List.cons_append, List.cons.injEq] at heq
          obtain ⟨rfl, heq⟩ := heq
          refine hcond ⟨rfl, ?_⟩
          have ha' : a' = ' ' :: ' ' :: y := by simpa using heq
          rw [h1, ha']
          simp
        | cons z x' =>
          simp only [List.cons_append, List.cons.injEq] at heq
          exact (hasSp3_false_iff _).mp h2 x' y heq.2

theorem pyLStrip_decomp (l : PyStr) : ∃ a, l = a ++ pyLStrip l :=
  ⟨l.takeWhile isPySpace, (List.takeWhile_append_dropWhile ..).symm⟩

theorem pyRStrip_decomp (m : PyStr) : ∃ b, m = pyRStrip m ++ b := by
  refine ⟨(m.reverse.takeWhile isPySpace).reverse, ?_⟩
  rw [pyRStrip]
  rw [← List.reverse_append]
  rw [List.takeWhile_append_dropWhile]
  rw [List.reverse_reverse]

theorem pyStrip_decomp (l : PyStr) : ∃ a b, l = a ++ pyStrip l ++ b := by
  obtain ⟨a, ha⟩ := pyLStrip_decomp l
  obtain ⟨b, hb⟩ := pyRStrip_decomp (pyLStrip l)
  refine ⟨a, b, ?_⟩
  rw [List.append_assoc]
  exact ha.trans (congrArg (a ++ ·) hb)

/-- If a string has no run of three spaces, neither does its `strip()`. -/
theorem hasSp3_pyStrip {l : PyStr} (h : hasSp3 l = false) :
    hasSp3 (pyStrip l) = false := by
  rw [hasSp3_false_iff]
  intro x y heq
  obtain ⟨a, b, hd⟩ := pyStrip_decomp l
  rw [heq] at hd
  exact (hasSp3_false_iff l).mp h (a ++ x) (y ++ b) (by rw [hd]; simp)

theorem dropWhile_head_false {p : Char → Bool} {l : PyStr} {c : Char} {t : PyStr}
    (h : l.dropWhile p = c :: t) : p c = false := by
  induction l with
  | nil => simp at h
  | cons x xs ih =>
    rw [List.dropWhile_cons] at h
    by_cases hx : p x
    · rw [if_pos hx] at h
      exact ih h
    · rw [if_neg hx] at h
      injection h with h1 h2
      rw [← h1]
      simpa using hx

theorem dropWhile_idem (p : Char → Bool) (l : PyStr) :
    (l.dropWhile p).dropWhile p = l.dropWhile p := by
  cases h : l.dropWhile p with
  | nil => simp
  | cons c t =>
    have := dropWhile_head_false h
    rw [List.dropWhile_cons, if_neg (by simp [this])]

/-- The first character of `s.strip()` is not whitespace. -/
theorem pyStrip_head {l : PyStr} {c : Char} {t : PyStr}
    (h : pyStrip l = c :: t) : isPySpace c = false := by
  obtain ⟨b, hb⟩ := pyRStrip_decomp (pyLStrip l)
  rw [pyStrip] at h
  rw [h] at hb
  exact dropWhile_head_false
    (show l.dropWhile isPySpace = c :: (t ++ b) by simpa [pyLStrip] using hb)

theorem pyStrip_ne_nil {c : Char} {x : PyStr} (hc : isPySpace c = false) :
    pyStrip (c :: x) ≠ [] := by
  rw [pyStrip, pyLStrip, List.dropWhile_cons, if_neg (by simp [hc])]
  intro h
  rw [pyRStrip] at h
  have h2 : (c :: x).reverse.dropWhile isPySpace = [] := by
    have := congrArg List.reverse h
    simpa using this
  rw [List.dropWhile_eq_nil_iff] at h2
  have := h2 c (by simp)
  rw [hc] at this
  exact absurd this (by simp)

theorem pyRStrip_append_space (u : PyStr) : pyRStrip (u ++ [' ']) = pyRStrip u := by
  rw [pyRStrip, pyRStrip, List.reverse_append]
  simp [List.dropWhile_cons, isPySpace]

theorem pyRStrip_pyStrip (l : PyStr) : pyRStrip (pyStrip l) = pyStrip l := by
  rw [pyStrip, pyRStrip, pyRStrip, List.reverse_reverse, dropWhile_idem]

theorem pyLStrip_pyStrip (l : PyStr) : pyLStrip (pyStrip l) = pyStrip l := by
  cases h : pyStrip l with
  | nil => rfl
  | cons c t =>
    have hc := pyStrip_head h
    rw [pyLStrip, List.dropWhile_cons, if_neg (by simp [hc])]

/-- Stripping after appending one trailing space undoes the append:
`(t.strip() + ' ').strip() == t.strip()`. -/
theorem pyStrip_append_space (t : PyStr) :
    pyStrip (pyStrip t ++ [' ']) = pyStrip t := by
  cases h : pyStrip t with
  | nil => decide
  | cons c u =>
    have hc := pyStrip_head h
    have h1 : pyLStrip ((c :: u) ++ [' ']) = (c :: u) ++ [' '] := by
      rw [List.cons_append]
      simp only [pyLStrip, List.dropWhile_cons]
      rw [if_neg (by simp [hc])]
    show pyRStrip (pyLStrip ((c :: u) ++ [' '])) = c :: u
    rw [h1, pyRStrip_append_space, ← h, pyRStrip_pyStrip]

/-! ## ColumnSplitter: the column-split loop (source lines 387-410)

Per line of a page: a line matching `^\s{45,}` goes entirely to the right
column; a line whose stripped text has no run of three spaces goes entirely
to the left column; otherwise the line is split once on three spaces
(after `sanitize_spaces` when the stripped line holds more than one run).
The recorded pair is `(leftline, rightline.strip())`, exactly what the
source appends to `leftcolumn` and `rightcolumn`. -/

/-- `re.match(r'^\s{45,}', line)`: at least 45 characters and the first 45
are whitespace. -/
def starts45 (l : PyStr) : Bool :=
  decide ((l.take 45).length = 45) && (l.take 45).all isPySpace

def splitLine (l : PyStr) : Option (PyStr × PyStr) :=
  if starts45 l then some ([], pyStrip (pyStrip l))
  else if hasSp3 (pyStrip l) = false then some (pyStrip l, [])
  else if 1 < count3 (pyStrip l) then
    (split3once (pyLStrip (sanitize_spaces l))).map fun p => (p.1, pyStrip p.2)
  else
    (split3once (pyLStrip l)).map fun p => (p.1, pyStrip p.2)

/-- One page of the column-split loop: the per-line left fragments (in
order) and the per-line right fragments (in order); the source then emits
the whole left column followed by the whole right column. -/
def splitPage : List PyStr → Option (List PyStr × List PyStr)
  | [] => some ([], [])
  | l :: rest =>
    match splitLine l, splitPage rest with
    | some p, some lr => some (p.1 :: lr.1, p.2 :: lr.2)
    | _, _ => none

/-- Number of lines whose text is non-empty modulo surrounding whitespace. -/
def countNE (ls : List PyStr) : Nat :=
  ls.countP (fun l => decide (pyStrip l ≠ []))

/-! ## PageNoiseFilter: the page-capture loop (source lines 371-384) -/

def startsWithStr (p s : PyStr) : Bool := decide (s.take p.length = p)

def endsWithStr (p s : PyStr) : Bool := decide (s.reverse.take p.length = p.reverse)

def ftpediaMark : PyStr := "ft:pedia".toList

def heftMark : PyStr := "Heft".toList

/-- `line.strip().isdigit()`: non-empty and all digits. -/
def isDigitLine (l : PyStr) : Bool :=
  decide (pyStrip l ≠ []) && (pyStrip l).all Char.isDigit

/-- `line.strip().startswith('ft:pedia') and line.strip().endswith(category)`. -/
def isHeaderLine (category l : PyStr) : Bool :=
  startsWithStr ftpediaMark (pyStrip l) && endsWithStr category (pyStrip l)

/-- `line.strip().startswith('Heft') and line.strip().endswith('ft:pedia')`. -/
def isFooterLine (l : PyStr) : Bool :=
  startsWithStr heftMark (pyStrip l) && endsWithStr ftpediaMark (pyStrip l)

/-- Body capture for one page: walk the remaining lines, stopping after the
first all-digit line (the page-number sentinel, consumed), skipping header
and footer lines, and appending every other line unchanged.  Returns the
captured page text and the remaining lines. -/
def capturePage (category acc : PyStr) : List PyStr → PyStr × List PyStr
  | [] => (acc, [])
  | l :: rest =>
    if isDigitLine l then (acc, rest)
    else if isHeaderLine category l then capturePage category acc rest
    else if isFooterLine l then capturePage category acc rest
    else capturePage category (acc ++ l) rest

/-- The outer loop `for i in range(nbpages)`: one captured text block per
requested page. -/
def pageNoiseFilter (category : PyStr) : Nat → List PyStr → List PyStr
  | 0, _ => []
  | n + 1, lines =>
    let pr := capturePage category [] lines
    pr.1 :: pageNoiseFilter category n pr.2

/-! ## ParagraphReflow: the paragraph-reassembly loop (source lines 447-467)

Each blank line emits the stripped accumulator as one paragraph and resets
it.  A non-blank line ending in `-` is appended with the dash dropped and
no separator; otherwise the line plus one space is appended.  Note that the
loop has no flush after the last line. -/

def reflowGo (paragraph : PyStr) : List PyStr → List PyStr
  | [] => []
  | l :: rest =>
    let line := pyStrip l
    if line = [] then pyStrip paragraph :: reflowGo [] rest
    else if line.getLast? = some '-' then reflowGo (paragraph ++ line.dropLast) rest
    else reflowGo (paragraph ++ line ++ [' ']) rest

def reflowParagraphs (lines : List PyStr) : List PyStr := reflowGo [] lines

/-! ## FragmentClassifier: `get_title_from_pdf` (source lines 92-112)

A page-1 element is a text container holding text lines, or any other
element (both advance `element_index`).  A text line carries the rounded
font size of its first character (`none` when the line has no `LTChar`)
and its text.  The source appends the first line whose rounded size is 20
in a container of index `> 1` followed by `' '`, then `break`s out of both
loops and strips the result. -/

structure TLine where
  fontSize : Option Int
  text : PyStr

inductive PageElem
  | container (lines : List TLine)
  | other

def titleHit (idx : Nat) (l : TLine) : Bool :=
  l.fontSize == some 20 && decide (1 < idx)

def titleGo : Nat → List PageElem → PyStr
  | _, [] => []
  | idx, PageElem.other :: rest => titleGo (idx + 1) rest
  | idx, PageElem.container ls :: rest =>
    match ls.find? (titleHit idx) with
    | some l => pyStrip l.text ++ [' ']
    | none => titleGo (idx + 1) rest

def get_title_from_pdf (page1 : List PageElem) : PyStr := pyStrip (titleGo 0 page1)

/-! ## FragmentClassifier: `get_category_from_article` (source lines 172-177)

`article_content` rows are `[page, container, layout, fontname, fontsize,
text]`.  The function returns the stripped text of the first row matching
`page == 1 and container >= 2 and fontname.endswith('ArialMT') and
fontsize == 12`, returns `''` as soon as a row with `page > 1` is seen,
and falls off the end (Python `None`, modelled `none`) when the rows are
exhausted without either. -/

structure Row where
  page : Nat
  container : Nat
  layout : PyStr
  fontName : PyStr
  fontSize : Int
  text : PyStr

def arialMark : PyStr := "ArialMT".toList

def catMatch (r : Row) : Bool :=
  r.page == 1 && decide (2 ≤ r.container) && endsWithStr arialMark r.fontName
    && r.fontSize == 12

def get_category_from_article : List Row → Option PyStr
  | [] => none
  | r :: rest =>
    if catMatch r then some (pyStrip r.text)
    else if 1 < r.page then some []
    else get_category_from_article rest

/-! ## `capitalize` (source lines 72-73)

`capitalize(s)` is `s[0].upper() + s[1:]`; on the empty string the index
access raises `IndexError`, modelled by `none`.  `pyUpperFirst` models
Python's single-codepoint `str.upper` on the ASCII and Latin-1 letters
(enough for the German/French text this script handles). -/

def pyUpperChar (c : Char) : Char :=
  if 'a' ≤ c ∧ c ≤ 'z' then Char.ofNat (c.toNat - 32)
  else if 'à' ≤ c ∧ c ≤ 'þ' ∧ c ≠ '÷' then Char.ofNat (c.toNat - 32)
  else c

def pyUpperFirst (c : Char) : PyStr :=
  if c = 'ß' then ['S', 'S'] else [pyUpperChar c]

def capitalize : PyStr → Option PyStr
  | [] => none
  | c :: rest => some (pyUpperFirst c ++ rest)

/-! ## FigureGrouper: `generate_array_figures` (source lines 204-252)

A PDF element is an `LTFigure` carrying its vertical extent `(y0, y1)` or
any other element.  The first pass walks pages in order, numbering image
elements from 1 and emitting `(page, -1)` separators (modelled
`(page, none)`); a separator is also emitted before an image whose `y1`
differs from the previous image's `y0` by at least 2, provided
`prev_was_a_pic` is set (it is never reset on non-figure elements, exactly
as in the source).  The second pass collects, per page id, maximal runs of
numbered entries, closing a run on a separator; a run still open when the
scan ends is discarded, exactly as in the source. -/

inductive PdfElem
  | fig (y0 y1 : ℚ)
  | other

structure FigScan where
  picNumber : Nat
  y0prev : ℚ
  prevWasPic : Bool

def scanElems (pg : Nat) (st : FigScan) :
    List PdfElem → List (Nat × Option Nat) × FigScan
  | [] => ([], st)
  | PdfElem.fig y0 y1 :: rest =>
    let sep : List (Nat × Option Nat) :=
      if 2 ≤ |y1 - st.y0prev| ∧ st.prevWasPic = true then [(pg, none)] else []
    let out := scanElems pg ⟨st.picNumber + 1, y0, true⟩ rest
    (sep ++ (pg, some st.picNumber) :: out.1, out.2)
  | PdfElem.other :: rest =>
    let out := scanElems pg st rest
    ((pg, none) :: out.1, out.2)

def scanPages (pg : Nat) (st : FigScan) : List (List PdfElem) → List (Nat × Option Nat)
  | [] => []
  | p :: ps =>
    let out := scanElems pg st p
    out.1 ++ scanPages (pg + 1) out.2 ps

def collectFigs (pg : Nat) : Bool → List Nat → List (Nat × Option Nat) → List (Nat × List Nat)
  | _, _, [] => []
  | found, nums, (p, o) :: rest =>
    if p = pg then
      match o with
      | some k => collectFigs pg true (if found then nums ++ [k] else [k]) rest
      | none =>
        if found then (pg, nums) :: collectFigs pg false [] rest
        else collectFigs pg false nums rest
    else collectFigs pg found nums rest

def generate_array_figures (pages : List (List PdfElem)) : List (Nat × List Nat) :=
  let pics := scanPages 1 ⟨1, 0, false⟩ pages
  ((List.range pages.length).map fun i => collectFigs (i + 1) false [] pics).flatten

theorem pyStrip_idem (l : PyStr) : pyStrip (pyStrip l) = pyStrip l := by
  show pyRStrip (pyLStrip (pyStrip l)) = pyStrip l
  rw [pyLStrip_pyStrip, pyRStrip_pyStrip]

/-- Contribution of one stored line to `countNE`. -/
def ne01 (x : PyStr) : Nat := if pyStrip x = [] then 0 else 1

theorem ne01_le_one (x : PyStr) : ne01 x ≤ 1 := by
  rw [ne01]
  split <;> omega

theorem ne01_pyStrip (x : PyStr) : ne01 (pyStrip x) = ne01 x := by
  rw [ne01, ne01, pyStrip_idem]

theorem ne01_nil : ne01 [] = 0 := rfl

theorem countNE_nil : countNE [] = 0 := rfl

theorem countNE_cons (x : PyStr) (ls : List PyStr) :
    countNE (x :: ls) = ne01 x + countNE ls := by
  rw [countNE, countNE, List.countP_cons, ne01]
  by_cases h : pyStrip x = [] <;> simp [h] <;> omega

theorem countNE_append (xs ys : List PyStr) :
    countNE (xs ++ ys) = countNE xs + countNE ys := by
  rw [countNE, countNE, countNE, List.countP_append]

/-- The left piece of a `split('   ', 1)` applied to an `lstrip()`ped string
is never blank: the string starts with a non-whitespace character, which
lands in the left piece. -/
theorem split3once_lstrip_left {X a b : PyStr}
    (h : split3once (pyLStrip X) = some (a, b)) : pyStrip a ≠ [] := by
  obtain ⟨hdec, -⟩ := split3once_decomp _ _ _ h
  cases a with
  | nil =>
    have hh : X.dropWhile isPySpace = ' ' :: (' ' :: ' ' :: b) := by
      simpa [pyLStrip, sp3] using hdec
    have := dropWhile_head_false hh
    simp [isPySpace] at this
  | cons d t =>
    have hh : X.dropWhile isPySpace = d :: (t ++ sp3 ++ b) := by
      simpa [pyLStrip, sp3] using hdec
    exact pyStrip_ne_nil (dropWhile_head_false hh)

/-- Per-line accounting for the column split: an all-whitespace line
contributes no non-blank output line; a non-blank line contributes one or
two non-blank output lines (two when it is split into both columns). -/
theorem splitLine_ne01 {l a b : PyStr} (h : splitLine l = some (a, b)) :
    ne01 l ≤ ne01 a + ne01 b ∧ ne01 a + ne01 b ≤ 2 * ne01 l := by
  by_cases h45 : starts45 l = true
  · rw [splitLine, if_pos h45] at h
    simp only [Option.some.injEq, Prod.mk.injEq] at h
    obtain ⟨rfl, rfl⟩ := h
    rw [ne01_pyStrip, ne01_pyStrip, ne01_nil]
    omega
  · rw [splitLine, if_neg h45] at h
    by_cases hno3 : hasSp3 (pyStrip l) = false
    · rw [if_pos hno3] at h
      simp only [Option.some.injEq, Prod.mk.injEq] at h
      obtain ⟨rfl, rfl⟩ := h
      rw [ne01_pyStrip, ne01_nil]
      omega
    · rw [if_neg hno3] at h
      have hl1 : ne01 l = 1 := by
        rw [ne01, if_neg]
        intro hnil
        rw [hnil] at hno3
        exact hno3 rfl
      by_cases hcnt : 1 < count3 (pyStrip l)
      · rw [if_pos hcnt] at h
        cases hsp : split3once (pyLStrip (sanitize_spaces l)) with
        | none =>
          rw [hsp] at h
          simp at h
        | some p =>
          rw [hsp] at h
          simp only [Option.map_some', Option.some.injEq, Prod.mk.injEq] at h
          obtain ⟨rfl, rfl⟩ := h
          have ha : ne01 p.1 = 1 := by
            rw [ne01, if_neg (split3once_lstrip_left
              (show split3once (pyLStrip (sanitize_spaces l)) = some (p.1, p.2) from hsp))]
          have hb := ne01_le_one p.2
          rw [hl1, ha, ne01_pyStrip]
          omega
      · rw [if_neg hcnt] at h
        cases hsp : split3once (pyLStrip l) with
        | none =>
          rw [hsp] at h
          simp at h
        | some p =>
          rw [hsp] at h
          simp only [Option.map_some', Option.some.injEq, Prod.mk.injEq] at h
          obtain ⟨rfl, rfl⟩ := h
          have ha : ne01 p.1 = 1 := by
            rw [ne01, if_neg (split3once_lstrip_left
              (show split3once (pyLStrip l) = some (p.1, p.2) from hsp))]
          have hb := ne01_le_one p.2
          rw [hl1, ha, ne01_pyStrip]
          omega

/-! ## The claims -/

/-- The observation sequence of claim C1: page 1 with an image at
`(y0, y1) = (10, 20)`, an image at `(20.5, 25)`, a text element, and an
image at `(5, 9)`. -/
def figObsC1 : List (List PdfElem) :=
  [[PdfElem.fig 10 20, PdfElem.fig (41/2) 25, PdfElem.other, PdfElem.fig 5 9]]

theorem scanC1 : scanPages 1 ⟨1, 0, false⟩ figObsC1 =
    [(1, some 1), (1, none), (1, some 2), (1, none), (1, none), (1, some 3)] := by
  have c2 : (2:ℚ) ≤ |(25:ℚ) - 10| := by norm_num
  have c3 : (2:ℚ) ≤ |(9:ℚ) - 41/2| := by
    rw [show (9:ℚ) - 41/2 = -(23/2) by norm_num, abs_neg,
      abs_of_nonneg (by norm_num : (0:ℚ) ≤ 23/2)]
    norm_num
  simp only [figObsC1, scanPages, scanElems]
  simp [c2, c3]

/-- Claim C1, counterexample: on the given observation sequence the grouper
does NOT produce a first figure with 2 members and a second with 1.  The
adjacency test `abs(cur.y1 - prev.y0) >= 2` compares the current image's
top with the previous image's bottom, which is 15 here, so the first two
images are separated; and the third image is left in a group that is never
flushed.  The member counts are `[1, 1]`, not `[2, 1]`. -/
theorem C1_figure_grouping_counterexample :
    (generate_array_figures figObsC1).map (fun f => f.2.length) = [1, 1] ∧
    (generate_array_figures figObsC1).map (fun f => f.2.length) ≠ [2, 1] := by
  constructor
  · rw [generate_array_figures, scanC1]
    decide
  · rw [generate_array_figures, scanC1]
    decide

/-- Claim C1, amended: on the observation sequence
`[(1,img,10,20), (1,img,20.5,25), (1,text), (1,img,5,9)]` the grouper
produces exactly two figures, each with a single member (images 1 and 2);
the third image is dropped because its group is still open when the scan
of page 1 ends. -/
theorem C1_figure_grouping_amended :
    generate_array_figures figObsC1 = [(1, [1]), (1, [2])] := by
  rw [generate_array_figures, scanC1]
  decide

/-- Claim C2: a figure list must contain every input image exactly once.
The code violates this: a trailing image group that is still open when the
per-page collection loop runs out of entries is never appended, so a page
whose element list ends with an image loses that image.  Evaluating the
code on a single page holding one image yields no figures at all. -/
theorem C2_image_fragment_dropped :
    generate_array_figures [[PdfElem.fig 0 10]] = [] := by
  have hscan : scanPages 1 ⟨1, 0, false⟩ [[PdfElem.fig 0 10]] = [(1, some 1)] := by
    simp [scanPages, scanElems]
  rw [generate_array_figures, hscan]
  decide

/-- First page of claim C3's counterexample: two non-container elements
(indices 0 and 1) and a container (index 2) holding two consecutive lines
of rounded font size 20. -/
def titlePageC3 : List PageElem :=
  [PageElem.other, PageElem.other,
   PageElem.container [⟨some 20, "Hello".toList⟩, ⟨some 20, "World".toList⟩]]

/-- Claim C3, counterexample: with two consecutive size-20 lines `Hello`
and `World` in container 2, the claim demands the concatenation
`"Hello World"`; the source `break`s out of both loops right after
appending the first matching line, so it returns only `"Hello"`. -/
theorem C3_title_counterexample :
    get_title_from_pdf titlePageC3 = "Hello".toList ∧
    get_title_from_pdf titlePageC3 ≠ "Hello World".toList := by
  exact ⟨by decide, by decide⟩

/-- Claim C3, amended: title extraction returns the trimmed text of the
FIRST line with rounded font size 20 in a container of index greater
than 1 — only that single line, never the rest of the run (here stated for
a page whose third element is the matching container, with arbitrary
further size-20 lines after the first). -/
theorem C3_title_first_line_only (a b : List TLine) (l1 l2 : TLine)
    (ls : List TLine) (rest : List PageElem) (h : l1.fontSize = some 20) :
    get_title_from_pdf (PageElem.container a :: PageElem.container b ::
      PageElem.container (l1 :: l2 :: ls) :: rest) = pyStrip l1.text := by
  have h0 : ∀ ls' : List TLine, ls'.find? (titleHit 0) = none :=
    fun ls' => List.find?_eq_none.mpr (fun x _ => by simp [titleHit])
  have h1 : ∀ ls' : List TLine, ls'.find? (titleHit 1) = none :=
    fun ls' => List.find?_eq_none.mpr (fun x _ => by simp [titleHit])
  have h2 : (l1 :: l2 :: ls).find? (titleHit 2) = some l1 :=
    List.find?_cons_of_pos _ (by simp [titleHit, h])
  rw [get_title_from_pdf, titleGo, h0, titleGo, h1, titleGo, h2]
  exact pyStrip_append_space _

/-- Claim C3, witness: the amended theorem evaluated at a concrete page. -/
theorem C3_title_witness :
    get_title_from_pdf [PageElem.container [], PageElem.container [],
      PageElem.container [⟨some 20, " Mein Titel ".toList⟩,
        ⟨some 20, "Zweite Zeile".toList⟩]] = pyStrip " Mein Titel ".toList :=
  C3_title_first_line_only [] [] ⟨some 20, " Mein Titel ".toList⟩
    ⟨some 20, "Zweite Zeile".toList⟩ [] [] rfl

/-- Claim C4: the paragraph-reassembly loop writes a paragraph only when it
meets a blank line; there is no flush after the last line, so a final
paragraph not followed by a blank line is silently dropped.  The same input
with a trailing blank line keeps the paragraph. -/
theorem C4_reflow_no_final_flush :
    reflowParagraphs ["Der letzte Absatz".toList] = [] ∧
    reflowParagraphs ["Der letzte Absatz".toList, []] = ["Der letzte Absatz".toList] := by
  exact ⟨by decide, by decide⟩

/-- Claim C5, counterexample: the sentinel test is `line.strip().isdigit()`
with no `[firstPage, lastPage]` bound.  With a single requested page and
the line `"999"` (outside any one-page range such as `[1, 1]`), the claim
says the line passes through unchanged; the code instead treats it as the
page-end sentinel, dropping it and ending the capture, so the following
line `"b"` is lost from the page as well. -/
theorem C5_sentinel_counterexample :
    pageNoiseFilter "X".toList 1 ["a\n".toList, "999\n".toList, "b\n".toList]
      = ["a\n".toList] ∧
    ("a\n".toList : PyStr) ≠ "a\n999\nb\n".toList := by
  exact ⟨by decide, by decide⟩

/-- Claim C5, amended: ANY line whose stripped text is a non-empty digit
string ends that page's body capture (no page-range bound), and a line that
is neither a digit line nor a header nor a footer is appended to the page
unchanged. -/
theorem C5_noise_filter_amended :
    (∀ (category acc l : PyStr) (rest : List PyStr), isDigitLine l = true →
      capturePage category acc (l :: rest) = (acc, rest)) ∧
    (∀ (category acc l : PyStr) (rest : List PyStr), isDigitLine l = false →
      isHeaderLine category l = false → isFooterLine l = false →
      capturePage category acc (l :: rest) = capturePage category (acc ++ l) rest) := by
  constructor
  · intro category acc l rest h
    rw [capturePage, if_pos h]
  · intro category acc l rest h1 h2 h3
    rw [capturePage, if_neg (by simp [h1]), if_neg (by simp [h2]),
      if_neg (by simp [h3])]

/-- Claim C5, witness: the amended theorem at concrete inputs. -/
theorem C5_noise_filter_witness :
    capturePage "X".toList [] ["42".toList] = ([], []) ∧
    capturePage "X".toList [] ["der Text\n".toList, "42".toList] =
      capturePage "X".toList ([] ++ "der Text\n".toList) ["42".toList] :=
  ⟨C5_noise_filter_amended.1 _ _ _ _ (by decide),
   C5_noise_filter_amended.2 _ _ _ _ (by decide) (by decide) (by decide)⟩

/-- The line of claim C6's counterexample: 45 leading tabs, then text. -/
def tabLineC6 : PyStr := List.replicate 45 '\t' ++ "abc".toList

/-- Claim C6, counterexample: a line of 45 tabs followed by `abc` contains
no run of three consecutive spaces, yet it matches `^\s{45,}` (checked
first), so the whole trimmed content goes to the RIGHT column, not the
left one the claim demands. -/
theorem C6_column_counterexample :
    hasSp3 tabLineC6 = false ∧
    splitLine tabLineC6 = some ([], "abc".toList) ∧
    splitLine tabLineC6 ≠ some (pyStrip tabLineC6, []) := by
  exact ⟨by decide, by decide, by decide⟩

/-- Claim C6, amended: a line with no run of three consecutive spaces AND
not starting with 45 whitespace characters is assigned entirely to the
left column as its trimmed content, with an empty right column. -/
theorem C6_left_column_amended (l : PyStr) (h3 : hasSp3 l = false)
    (h45 : starts45 l = false) : splitLine l = some (pyStrip l, []) := by
  rw [splitLine, if_neg (by simp [h45]), if_pos (hasSp3_pyStrip h3)]

/-- Claim C6, witness: the amended theorem at a concrete line. -/
theorem C6_left_column_witness :
    hasSp3 "ein Satz".toList = false ∧ starts45 "ein Satz".toList = false ∧
    splitLine "ein Satz".toList = some (pyStrip "ein Satz".toList, []) :=
  ⟨by decide, by decide, C6_left_column_amended _ (by decide) (by decide)⟩

/-- Claim C7, counterexample: the page consisting of the single line
`"aaa   bbb"` has one non-empty line; the split produces left column
`["aaa"]` and right column `["bbb"]`, whose concatenation has TWO
non-empty lines, so the claimed count equality fails whenever a line is
genuinely split into both columns. -/
theorem C7_roundtrip_counterexample :
    splitPage ["aaa   bbb".toList] = some (["aaa".toList], ["bbb".toList]) ∧
    countNE ["aaa   bbb".toList] = 1 ∧
    countNE (["aaa".toList] ++ ["bbb".toList]) = 2 := by
  exact ⟨by decide, by decide, by decide⟩

/-- Claim C7, amended: for every page on which the split succeeds, the
concatenated columns contain at least as many non-empty lines as the input
page and at most twice as many: each non-empty input line yields one or two
non-empty output lines (two exactly when it splits into both columns), and
whitespace-only lines yield none — no line is dropped or duplicated beyond
the two-column split itself. -/
theorem C7_roundtrip_bounds (page L R : List PyStr)
    (h : splitPage page = some (L, R)) :
    countNE page ≤ countNE (L ++ R) ∧ countNE (L ++ R) ≤ 2 * countNE page := by
  induction page generalizing L R with
  | nil =>
    rw [splitPage] at h
    simp only [Option.some.injEq, Prod.mk.injEq] at h
    obtain ⟨rfl, rfl⟩ := h
    simp [countNE_nil]
  | cons l rest ih =>
    rw [splitPage] at h
    cases hl : splitLine l with
    | none =>
      rw [hl] at h
      simp at h
    | some p =>
      cases hr : splitPage rest with
      | none =>
        rw [hl, hr] at h
        simp at h
      | some lr =>
        rw [hl, hr] at h
        simp only [Option.some.injEq, Prod.mk.injEq] at h
        obtain ⟨rfl, rfl⟩ := h
        obtain ⟨ih1, ih2⟩ := ih lr.1 lr.2 (by rw [hr])
        obtain ⟨pl1, pl2⟩ := splitLine_ne01
          (show splitLine l = some (p.1, p.2) from hl)
        rw [countNE_append] at ih1 ih2
        rw [countNE_cons, List.cons_append, countNE_cons, countNE_append,
          countNE_cons]
        omega

/-- Claim C7, witness: the amended bounds at a concrete two-line page. -/
theorem C7_roundtrip_witness :
    countNE ["left   right".toList, "only".toList] ≤
      countNE (["left".toList, "only".toList] ++ ["right".toList, []]) ∧
    countNE (["left".toList, "only".toList] ++ ["right".toList, []]) ≤
      2 * countNE ["left   right".toList, "only".toList] :=
  C7_roundtrip_bounds _ _ _ (by decide)

/-- Claim C8: `sanitize_spaces` terminates on every string (it is a total
function here, with termination proved from the length decrease of each
loop) and normalizes whitespace: the result contains no run of four or
more spaces and at most one run of three spaces (`s.count('   ') <= 1`),
so at most one run of three or more consecutive spaces overall; and the
subsequent `split('   ', 1)` splits exactly once, on the FIRST remaining
run: the two pieces reassemble the string around one run of three spaces
and the left piece contains no such run. -/
theorem C8_sanitize_spaces_normalization :
    (∀ s : PyStr, hasSp4 (sanitize_spaces s) = false ∧
      count3 (sanitize_spaces s) ≤ 1) ∧
    (∀ s a b : PyStr, split3once s = some (a, b) →
      s = a ++ sp3 ++ b ∧ hasSp3 a = false) :=
  ⟨fun s => ⟨collapse3_no4 (shrink4 s) (shrink4_no4 s), collapse3_count (shrink4 s)⟩,
   split3once_decomp⟩

/-- Claim C8, witness: the split clause of the theorem at a concrete
string. -/
theorem C8_sanitize_witness :
    ("ab   cd".toList : PyStr) = "ab".toList ++ sp3 ++ "cd".toList ∧
    hasSp3 "ab".toList = false :=
  C8_sanitize_spaces_normalization.2 "ab   cd".toList "ab".toList "cd".toList
    (by decide)

/-- The row list of claim C9's counterexample: a single page-1 row whose
font is bold, so nothing matches and the loop is exhausted. -/
def rowsC9 : List Row := [⟨1, 0, "lc".toList, "Arial-BoldMT".toList, 12, "x".toList⟩]

/-- Claim C9, counterexample: when the row stream is exhausted without a
match and without ever reaching a page beyond 1, the function falls off
the end and returns Python `None` (modelled `none`), not the empty string
the claim requires. -/
theorem C9_category_counterexample :
    get_category_from_article rowsC9 = none ∧
    get_category_from_article rowsC9 ≠ some [] := by
  exact ⟨by decide, by decide⟩

/-- Claim C9, amended: category extraction returns the first matching
fragment's trimmed text when a page-1 fragment with container index >= 2,
font name ending in `ArialMT` and font size 12 appears before any
later-page fragment; it returns the empty string when a fragment with
page > 1 is reached first; and it returns `None` (no value at all, not the
empty string) when the stream is exhausted without either. -/
theorem C9_category_amended :
    (∀ (pre : List Row) (r : Row) (post : List Row),
      (∀ x ∈ pre, catMatch x = false ∧ x.page ≤ 1) → catMatch r = true →
      get_category_from_article (pre ++ r :: post) = some (pyStrip r.text)) ∧
    (∀ rows : List Row, (∀ x ∈ rows, catMatch x = false ∧ x.page ≤ 1) →
      get_category_from_article rows = none) ∧
    (∀ (pre : List Row) (r : Row) (post : List Row),
      (∀ x ∈ pre, catMatch x = false ∧ x.page ≤ 1) → 1 < r.page →
      get_category_from_article (pre ++ r :: post) = some []) := by
  refine ⟨?_, ?_, ?_⟩
  · intro pre r post
    induction pre with
    | nil =>
      intro _ hr
      simp only [List.nil_append]
      rw [get_category_from_article, if_pos hr]
    | cons q pre' ih =>
      intro hpre hr
      obtain ⟨hq1, hq2⟩ := hpre q (by simp)
      rw [List.cons_append, get_category_from_article, if_neg (by simp [hq1]),
        if_neg (by omega)]
      exact ih (fun x hx => hpre x (by simp [hx])) hr
  · intro rows
    induction rows with
    | nil =>
      intro _
      rfl
    | cons q rest ih =>
      intro hrows
      obtain ⟨hq1, hq2⟩ := hrows q (by simp)
      rw [get_category_from_article, if_neg (by simp [hq1]), if_neg (by omega)]
      exact ih (fun x hx => hrows x (by simp [hx]))
  · intro pre r post
    induction pre with
    | nil =>
      intro _ hr
      have hbeq : (r.page == 1) = false := by
        simp only [beq_eq_false_iff_ne, ne_eq]
        omega
      have hcm : catMatch r = false := by
        simp [catMatch, hbeq]
      simp only [List.nil_append]
      rw [get_category_from_article, if_neg (by simp [hcm]), if_pos hr]
    | cons q pre' ih =>
      intro hpre hr
      obtain ⟨hq1, hq2⟩ := hpre q (by simp)
      rw [List.cons_append, get_category_from_article, if_neg (by simp [hq1]),
        if_neg (by omega)]
      exact ih (fun x hx => hpre x (by simp [hx])) hr

/-- Rows exercising the three clauses of the amended claim C9. -/
def rowMatchC9 : Row := ⟨1, 2, "lc".toList, "FooArialMT".toList, 12, " Elektronik ".toList⟩

def rowPage2C9 : Row := ⟨2, 0, "lc".toList, "FooArialMT".toList, 12, "y".toList⟩

/-- Claim C9, witness: the amended theorem's three clauses at concrete
rows. -/
theorem C9_category_witness :
    get_category_from_article [rowMatchC9] = some (pyStrip rowMatchC9.text) ∧
    get_category_from_article rowsC9 = none ∧
    get_category_from_article [rowPage2C9] = some [] :=
  ⟨C9_category_amended.1 [] rowMatchC9 [] (by simp) (by decide),
   C9_category_amended.2.1 rowsC9 (by
     intro x hx
     rw [rowsC9, List.mem_singleton] at hx
     subst hx
     exact ⟨by decide, by decide⟩),
   C9_category_amended.2.2 [] rowPage2C9 [] (by simp) (by decide)⟩

/-- Claim C10: `capitalize` is defined exactly on non-empty strings — on a
non-empty string it returns the first codepoint uppercased (Python
`s[0].upper()`, which may expand `ß` to `SS`) followed by the rest
unchanged, and on the empty string its index access fails (`none`, the
`IndexError` branch).  The third clause shows the empty string is a value
category extraction really returns (its page-past-1 classification miss),
so the failure is reachable at the call site `capitalize(...)` unless the
caller checks for emptiness first. -/
theorem C10_capitalize_partial :
    (∀ (c : Char) (rest : PyStr), capitalize (c :: rest) = some (pyUpperFirst c ++ rest)) ∧
    capitalize [] = none ∧
    get_category_from_article [⟨2, 0, [], [], 12, []⟩] = some [] :=
  ⟨fun c rest => rfl, rfl, by decide⟩
